import Mathlib

/-!
# Verification of the NeuroVox streaming transcription pipeline

Shallow embedding of the streaming-transcription core of the NeuroVox
repository:

* `src/backend/src/websocket.ts` — the per-connection server handler
  (`initializeWebSocket`'s `wss.on('connection')` closure): PCM accumulation
  buffer, the `triggerTranscription` function, the silence timer and the
  latency check, and the transcript / error messages sent to the client.
* `src/src/utils/transcription/StreamingTranscriptionService.ts` — the
  client streaming session: chunk queue draining loop, `finishProcessing`,
  `startProcessing` / `connectSocket` and `abort`.
* `ChunkQueue` (the file `src/utils/audio/ChunkQueue.ts` is not present in
  the tree; it is modelled from the specification, see below).

Two views of the server handler are embedded.  The untimed view (`Conn`,
`step`, `run`) treats each JavaScript event-loop turn as one atomic step —
faithful because the handler code between two `await` points runs to
completion on the single JS thread.  The timed view (`TConn`, `trun`) adds
the `setTimeout`-based silence timer, the `lastTranscriptionTime` clock and
the latency check, and records the wall-clock times at which
`triggerTranscription` is invoked.
-/

namespace NeuroVox

/-! ## JavaScript `String.prototype.trim`

`text.trim()` removes leading and trailing whitespace.  Embedded on the
character list underlying the string. -/

def wsChar (c : Char) : Bool :=
  c = ' ' || c = '\t' || c = '\n' || c = '\r'

def trimChars (l : List Char) : List Char :=
  ((l.dropWhile wsChar).reverse.dropWhile wsChar).reverse

def jsTrim (s : String) : String := ⟨trimChars s.data⟩

/-! ## Server connection handler, untimed view (`websocket.ts` lines 17-178)

Per-connection mutable state relevant to the buffer/inference discipline:
`pcmBuffer : Buffer[]` (a list of decoded PCM chunks, each a byte list) and
the `isTranscribing` in-flight-inference flag. -/

structure Conn where
  pcmBuffer : List (List Nat)
  isTranscribing : Bool
deriving DecidableEq, Repr

/-- Result of the opaque inference call `transcribeFloat32` (the promise
either fulfills with a text or throws). -/
inductive InfResult
  | ok (text : String)
  | err
deriving DecidableEq, Repr

/-- JSON messages the server sends to the client
(`{type:'transcription',text}` and `{type:'error',message}`). -/
inductive ServerMsg
  | transcription (text : String)
  | error (message : String)
deriving DecidableEq, Repr

/-- Observable actions of one event-loop step: starting an inference on a
snapshot of PCM bytes, sending a message on the socket, and the `finally`
block of a transcription pass completing. -/
inductive Out
  | infStart (pcm : List Nat)
  | send (m : ServerMsg)
  | infEnd
deriving DecidableEq, Repr

/-- `triggerTranscription` (lines 128-146) up to its first `await`: the
empty-buffer guard, the in-flight guard, and on passing both the atomic
snapshot (`Buffer.concat(pcmBuffer)`) and clear (`pcmBuffer = []`) followed
by starting the inference.  There is no `await` between the two guards and
the clear, so this whole prefix is one atomic step of the JS event loop. -/
def triggerTranscription (s : Conn) : Conn × List Out :=
  if s.pcmBuffer = [] then (s, [])
  else if s.isTranscribing then (s, [])
  else (⟨[], true⟩, [Out.infStart s.pcmBuffer.flatten])

/-- The continuation of `triggerTranscription` once the awaited inference
settles (lines 164-176): on fulfillment send a transcript message iff the
text is truthy and its trim is truthy, on rejection send an error message;
the `finally` block clears the in-flight flag. -/
def infDoneStep (s : Conn) (r : InfResult) : Conn × List Out :=
  if s.isTranscribing then
    match r with
    | InfResult.ok t =>
        if t ≠ "" ∧ jsTrim t ≠ "" then
          ({ s with isTranscribing := false },
            [Out.send (ServerMsg.transcription (jsTrim t)), Out.infEnd])
        else
          ({ s with isTranscribing := false }, [Out.infEnd])
    | InfResult.err =>
        ({ s with isTranscribing := false },
          [Out.send (ServerMsg.error "Transcription failed"), Out.infEnd])
  else (s, [])

/-- Events delivered to the connection by the event loop: a decoded-PCM
chunk from the ffmpeg output stream (`ffStream.on('data')`, lines 51-54), a
`reset` control message (line 93), a `flush` control message (line 96), a
call to `triggerTranscription` from a timer or the latency check, and the
settling of an in-flight inference. -/
inductive Ev
  | pcmData (chunk : List Nat)
  | reset
  | flush
  | trigger
  | infDone (r : InfResult)
deriving DecidableEq, Repr

/-- One atomic event-loop step of the connection handler. -/
def step (s : Conn) (e : Ev) : Conn × List Out :=
  match e with
  | Ev.pcmData c => ({ s with pcmBuffer := s.pcmBuffer ++ [c] }, [])
  | Ev.reset => ({ s with pcmBuffer := [] }, [])
  | Ev.flush => triggerTranscription s
  | Ev.trigger => triggerTranscription s
  | Ev.infDone r => infDoneStep s r

/-- Run a sequence of events, concatenating the observable actions. -/
def run (s : Conn) : List Ev → Conn × List Out
  | [] => (s, [])
  | e :: rest =>
    let p := step s e
    let q := run p.1 rest
    (q.1, p.2 ++ q.2)

/-- The connection state at creation (lines 20-22). -/
def conn0 : Conn := ⟨[], false⟩

/-- Number of inference passes started in an action list. -/
def countStarts : List Out → Nat
  | [] => 0
  | Out.infStart _ :: rest => countStarts rest + 1
  | Out.send _ :: rest => countStarts rest
  | Out.infEnd :: rest => countStarts rest

/-- Number of inference passes completed in an action list. -/
def countEnds : List Out → Nat
  | [] => 0
  | Out.infEnd :: rest => countEnds rest + 1
  | Out.send _ :: rest => countEnds rest
  | Out.infStart _ :: rest => countEnds rest

def flagNat (s : Conn) : Nat := if s.isTranscribing then 1 else 0

/-- Bytes ingested into the PCM buffer by an event list. -/
def ingested : List Ev → Nat
  | [] => 0
  | Ev.pcmData c :: rest => c.length + ingested rest
  | _ :: rest => ingested rest

/-- Bytes handed to inference in an action list. -/
def snapBytes : List Out → Nat
  | [] => 0
  | Out.infStart p :: rest => p.length + snapBytes rest
  | Out.send _ :: rest => snapBytes rest
  | Out.infEnd :: rest => snapBytes rest

/-! ## Basic lemmas about the untimed server model -/

lemma run_nil (s : Conn) : run s [] = (s, []) := rfl

lemma run_cons (s : Conn) (e : Ev) (rest : List Ev) :
    run s (e :: rest)
      = ((run (step s e).1 rest).1, (step s e).2 ++ (run (step s e).1 rest).2) := rfl

lemma countStarts_append (a b : List Out) :
    countStarts (a ++ b) = countStarts a + countStarts b := by
  induction a with
  | nil => simp [countStarts]
  | cons o rest ih => cases o <;> (simp [countStarts, ih]; try omega)

lemma countEnds_append (a b : List Out) :
    countEnds (a ++ b) = countEnds a + countEnds b := by
  induction a with
  | nil => simp [countEnds]
  | cons o rest ih => cases o <;> (simp [countEnds, ih]; try omega)

lemma snapBytes_append (a b : List Out) :
    snapBytes (a ++ b) = snapBytes a + snapBytes b := by
  induction a with
  | nil => simp [snapBytes]
  | cons o rest ih => cases o <;> (simp [snapBytes, ih]; try omega)

/-- Each single step balances inference starts and ends against the
in-flight flag. -/
lemma stepFlight (s : Conn) (e : Ev) :
    countStarts (step s e).2 + flagNat s
      = countEnds (step s e).2 + flagNat (step s e).1 := by
  cases e with
  | pcmData c => simp [step, countStarts, countEnds, flagNat]
  | reset => simp [step, countStarts, countEnds, flagNat]
  | flush =>
    simp only [step, triggerTranscription]
    split_ifs with h1 h2
    · simp [countStarts, countEnds]
    · simp [countStarts, countEnds]
    · simp [countStarts, countEnds, flagNat, h2]
  | trigger =>
    simp only [step, triggerTranscription]
    split_ifs with h1 h2
    · simp [countStarts, countEnds]
    · simp [countStarts, countEnds]
    · simp [countStarts, countEnds, flagNat, h2]
  | infDone r =>
    cases r with
    | ok t =>
      simp only [step, infDoneStep]
      split_ifs with h1 h2
      · simp [countStarts, countEnds, flagNat, h1]
      · simp [countStarts, countEnds, flagNat, h1]
      · simp [countStarts, countEnds]
    | err =>
      simp only [step, infDoneStep]
      split_ifs with h1
      · simp [countStarts, countEnds, flagNat, h1]
      · simp [countStarts, countEnds]

/-- Along any run, inference starts minus ends equals the in-flight flag. -/
lemma runFlight (evs : List Ev) : ∀ s : Conn,
    countStarts (run s evs).2 + flagNat s
      = countEnds (run s evs).2 + flagNat (run s evs).1 := by
  induction evs with
  | nil => intro s; simp [run, countStarts, countEnds]
  | cons e rest ih =>
    intro s
    have h1 := stepFlight s e
    have h2 := ih (step s e).1
    rw [run_cons]
    dsimp only
    rw [countStarts_append, countEnds_append]
    omega

lemma flagNat_le_one (s : Conn) : flagNat s ≤ 1 := by
  unfold flagNat; split_ifs <;> omega

/-- C1 -- A transcription trigger (silence timer, latency check, or `flush`
control message) is a no-op when an inference is already in flight or the
PCM accumulation buffer is empty: the connection state is unchanged and no
inference is started and no message sent; consequently along every event
sequence from a fresh connection the number of inference passes started
never exceeds the number completed by more than one (at most one inference
in flight per connection). -/
theorem trigger_noop_and_single_flight :
    (∀ s : Conn, s.isTranscribing = true ∨ s.pcmBuffer = [] →
      triggerTranscription s = (s, []) ∧ step s Ev.flush = (s, []) ∧
        step s Ev.trigger = (s, [])) ∧
    ∀ evs : List Ev,
      countStarts (run conn0 evs).2 ≤ countEnds (run conn0 evs).2 + 1 := by
  constructor
  · intro s h
    have htr : triggerTranscription s = (s, []) := by
      unfold triggerTranscription
      by_cases hb : s.pcmBuffer = []
      · simp [hb]
      · rcases h with h | h
        · simp [hb, h]
        · exact absurd h hb
    exact ⟨htr, htr, htr⟩
  · intro evs
    have h := runFlight evs conn0
    have h2 := flagNat_le_one (run conn0 evs).1
    have h0 : flagNat conn0 = 0 := rfl
    omega

/-- Witness for `trigger_noop_and_single_flight` at a concrete connection
state and event list. -/
theorem trigger_noop_and_single_flight_witness :
    triggerTranscription ⟨[], false⟩ = (⟨[], false⟩, []) ∧
    countStarts (run conn0 [Ev.pcmData [1, 2], Ev.trigger, Ev.flush]).2
      ≤ countEnds (run conn0 [Ev.pcmData [1, 2], Ev.trigger, Ev.flush]).2 + 1 :=
  ⟨(trigger_noop_and_single_flight.1 ⟨[], false⟩ (Or.inr rfl)).1,
    trigger_noop_and_single_flight.2 [Ev.pcmData [1, 2], Ev.trigger, Ev.flush]⟩

/-- Byte conservation along a reset-free run: bytes initially buffered plus
bytes ingested equal bytes snapshotted for inference plus bytes still
buffered. -/
lemma runConservation (evs : List Ev) : ∀ s : Conn, Ev.reset ∉ evs →
    s.pcmBuffer.flatten.length + ingested evs
      = snapBytes (run s evs).2 + (run s evs).1.pcmBuffer.flatten.length := by
  induction evs with
  | nil => intro s _; simp [run, ingested, snapBytes]
  | cons e rest ih =>
    intro s hnr
    have hner : Ev.reset ∉ rest := fun h => hnr (List.mem_cons_of_mem _ h)
    rw [run_cons]
    dsimp only
    rw [snapBytes_append]
    cases e with
    | pcmData c =>
      have hih := ih ({ s with pcmBuffer := s.pcmBuffer ++ [c] }) hner
      simp only [step, snapBytes, ingested]
      simp only [List.flatten_append, List.flatten_cons, List.flatten_nil,
        List.append_nil, List.length_append] at hih ⊢
      omega
    | reset => exact absurd (List.mem_cons_self _ _) hnr
    | flush =>
      simp only [step, triggerTranscription, ingested]
      split_ifs with h1 h2
      · have hih := ih s hner
        simp only [snapBytes, h1, List.flatten_nil, List.length_nil] at hih ⊢
        omega
      · have hih := ih s hner
        simp only [snapBytes]
        omega
      · have hih := ih (⟨[], true⟩ : Conn) hner
        simp only [List.flatten_nil, List.length_nil] at hih
        simp only [snapBytes]
        omega
    | trigger =>
      simp only [step, triggerTranscription, ingested]
      split_ifs with h1 h2
      · have hih := ih s hner
        simp only [snapBytes, h1, List.flatten_nil, List.length_nil] at hih ⊢
        omega
      · have hih := ih s hner
        simp only [snapBytes]
        omega
      · have hih := ih (⟨[], true⟩ : Conn) hner
        simp only [List.flatten_nil, List.length_nil] at hih
        simp only [snapBytes]
        omega
    | infDone r =>
      cases r with
      | ok t =>
        simp only [step, infDoneStep, ingested]
        split_ifs with h1 h2
        · have hih := ih ({ s with isTranscribing := false }) hner
          dsimp only at hih ⊢
          simp only [snapBytes]
          omega
        · have hih := ih ({ s with isTranscribing := false }) hner
          dsimp only at hih ⊢
          simp only [snapBytes]
          omega
        · have hih := ih s hner
          simp only [snapBytes]
          omega
      | err =>
        simp only [step, infDoneStep, ingested]
        split_ifs with h1
        · have hih := ih ({ s with isTranscribing := false }) hner
          dsimp only at hih ⊢
          simp only [snapBytes]
          omega
        · have hih := ih s hner
          simp only [snapBytes]
          omega

/-- C2 -- On a trigger that actually fires, the accumulated PCM buffer is
snapshotted in full (`Buffer.concat`) and replaced by the empty buffer in
the same atomic step; a chunk ingested right after the trigger lands in the
fresh buffer and the emitted snapshot is unchanged; and along any reset-free
run no byte is lost: initial plus ingested bytes always equal snapshotted
plus still-buffered bytes. -/
theorem snapshot_swap_atomic_and_lossless :
    (∀ s : Conn, s.pcmBuffer ≠ [] → s.isTranscribing = false →
      triggerTranscription s = (⟨[], true⟩, [Out.infStart s.pcmBuffer.flatten]) ∧
      ∀ c : List Nat,
        run s [Ev.trigger, Ev.pcmData c]
          = (⟨[c], true⟩, [Out.infStart s.pcmBuffer.flatten])) ∧
    ∀ (s : Conn) (evs : List Ev), Ev.reset ∉ evs →
      s.pcmBuffer.flatten.length + ingested evs
        = snapBytes (run s evs).2 + (run s evs).1.pcmBuffer.flatten.length := by
  constructor
  · intro s hne hfl
    have htr : triggerTranscription s
        = (⟨[], true⟩, [Out.infStart s.pcmBuffer.flatten]) := by
      unfold triggerTranscription
      simp [hne, hfl]
    refine ⟨htr, fun c => ?_⟩
    rw [run_cons]
    simp only [step, htr]
    rfl
  · intro s evs h
    exact runConservation evs s h

/-- Witness for `snapshot_swap_atomic_and_lossless` at a concrete state and
event list. -/
theorem snapshot_swap_atomic_and_lossless_witness :
    triggerTranscription ⟨[[1, 2], [3]], false⟩
      = (⟨[], true⟩, [Out.infStart [1, 2, 3]]) ∧
    (Conn.mk [[1, 2], [3]] false).pcmBuffer.flatten.length
        + ingested [Ev.pcmData [4, 5], Ev.trigger]
      = snapBytes (run ⟨[[1, 2], [3]], false⟩ [Ev.pcmData [4, 5], Ev.trigger]).2
        + (run ⟨[[1, 2], [3]], false⟩
            [Ev.pcmData [4, 5], Ev.trigger]).1.pcmBuffer.flatten.length := by
  constructor
  · exact (snapshot_swap_atomic_and_lossless.1 ⟨[[1, 2], [3]], false⟩
      (by decide) rfl).1
  · exact snapshot_swap_atomic_and_lossless.2 ⟨[[1, 2], [3]], false⟩
      [Ev.pcmData [4, 5], Ev.trigger] (by decide)

/-! ## Trimming lemmas -/

lemma dropWhile_head_not (p : Char → Bool) :
    ∀ (l : List Char) (a : Char), (l.dropWhile p).head? = some a → p a = false := by
  intro l
  induction l with
  | nil => intro a ha; simp at ha
  | cons c rest ih =>
    intro a ha
    by_cases hc : p c
    · rw [List.dropWhile_cons, if_pos hc] at ha
      exact ih a ha
    · rw [List.dropWhile_cons, if_neg hc] at ha
      simp only [List.head?_cons, Option.some.injEq] at ha
      rw [← ha]
      simpa using hc

lemma dropWhile_eq_self_of_head (p : Char → Bool) (l : List Char)
    (h : ∀ a, l.head? = some a → p a = false) : l.dropWhile p = l := by
  cases l with
  | nil => rfl
  | cons c rest =>
    have hc := h c rfl
    rw [List.dropWhile_cons, if_neg (by simp [hc])]

lemma dropWhile_self (p : Char → Bool) (l : List Char) :
    (l.dropWhile p).dropWhile p = l.dropWhile p :=
  dropWhile_eq_self_of_head p _ (dropWhile_head_not p l)

/-- The head of a trimmed character list is not whitespace. -/
lemma trimChars_head (l : List Char) :
    ∀ a, (trimChars l).head? = some a → wsChar a = false := by
  intro a ha
  unfold trimChars at ha
  rw [List.head?_reverse] at ha
  have hne : (l.dropWhile wsChar).reverse.dropWhile wsChar ≠ [] := by
    intro h0
    rw [h0] at ha
    simp at ha
  have hsplit :
      (l.dropWhile wsChar).reverse.takeWhile wsChar
          ++ (l.dropWhile wsChar).reverse.dropWhile wsChar
        = (l.dropWhile wsChar).reverse :=
    List.takeWhile_append_dropWhile wsChar (l.dropWhile wsChar).reverse
  have hlast : ((l.dropWhile wsChar).reverse.dropWhile wsChar).getLast?
      = (l.dropWhile wsChar).reverse.getLast? := by
    conv_rhs => rw [← hsplit]
    exact (List.getLast?_append_of_ne_nil _ hne).symm
  rw [hlast, List.getLast?_reverse] at ha
  exact dropWhile_head_not wsChar l a ha

lemma trimChars_trimChars (l : List Char) :
    trimChars (trimChars l) = trimChars l := by
  have h1 : (trimChars l).dropWhile wsChar = trimChars l :=
    dropWhile_eq_self_of_head wsChar _ (trimChars_head l)
  show ((((trimChars l).dropWhile wsChar).reverse).dropWhile wsChar).reverse
      = trimChars l
  rw [h1]
  unfold trimChars
  rw [List.reverse_reverse, dropWhile_self]

/-- JavaScript trimming is idempotent. -/
lemma jsTrim_jsTrim (s : String) : jsTrim (jsTrim s) = jsTrim s := by
  unfold jsTrim
  exact congrArg String.mk (trimChars_trimChars s.data)

lemma jsTrim_empty : jsTrim "" = "" := rfl

/-- Recognizer for transcript messages among observable actions. -/
def isTranscriptMsg (o : Out) : Bool :=
  match o with
  | Out.send (ServerMsg.transcription _) => true
  | _ => false

/-- C10 -- Every transcript message the server sends carries a text that is
non-empty and already trimmed (so it stays non-empty after trimming), and a
successful inference pass whose result trims to the empty string produces no
client-visible message at all (the pass just clears the in-flight flag). -/
theorem transcript_text_trimmed_nonempty :
    (∀ (s : Conn) (e : Ev) (tx : String),
      Out.send (ServerMsg.transcription tx) ∈ (step s e).2 →
        tx ≠ "" ∧ jsTrim tx = tx) ∧
    ∀ (s : Conn) (t : String), s.isTranscribing = true → jsTrim t = "" →
      step s (Ev.infDone (InfResult.ok t))
        = ({ s with isTranscribing := false }, [Out.infEnd]) := by
  constructor
  · intro s e tx hm
    cases e with
    | pcmData c => simp [step] at hm
    | reset => simp [step] at hm
    | flush =>
      simp only [step, triggerTranscription] at hm
      split_ifs at hm <;> simp at hm
    | trigger =>
      simp only [step, triggerTranscription] at hm
      split_ifs at hm <;> simp at hm
    | infDone r =>
      cases r with
      | ok t =>
        simp only [step, infDoneStep] at hm
        split_ifs at hm with h1 h2
        · simp only [List.mem_cons, List.not_mem_nil, or_false] at hm
          rcases hm with hm | hm
          · have htx : tx = jsTrim t := by simpa using hm
            subst htx
            exact ⟨h2.2, jsTrim_jsTrim t⟩
          · exact absurd hm (by simp)
        · simp at hm
        · simp at hm
      | err =>
        simp only [step, infDoneStep] at hm
        split_ifs at hm <;> simp at hm
  · intro s t hs htrim
    have hguard : ¬(t ≠ "" ∧ jsTrim t ≠ "") := fun hg => hg.2 htrim
    simp [step, infDoneStep, hs, hguard]

/-- Witness for `transcript_text_trimmed_nonempty` at a concrete inference
result with surrounding whitespace, and at a whitespace-only result. -/
theorem transcript_text_trimmed_nonempty_witness :
    ("hi" ≠ "" ∧ jsTrim "hi" = "hi") ∧
    step ⟨[], true⟩ (Ev.infDone (InfResult.ok " "))
      = (⟨[], false⟩, [Out.infEnd]) :=
  ⟨transcript_text_trimmed_nonempty.1 ⟨[], true⟩ (Ev.infDone (InfResult.ok " hi "))
      "hi" (by decide),
    transcript_text_trimmed_nonempty.2 ⟨[], true⟩ " " rfl (by decide)⟩

/-- C7 (counterexample) -- A transcription pass that succeeds with an empty
result text sends no transcript message at all: the claim that every
successful pass sends a transcript message containing the resulting text
fails at the inference result `ok ""`. -/
theorem success_with_empty_text_sends_nothing :
    step ⟨[], true⟩ (Ev.infDone (InfResult.ok "")) = (⟨[], false⟩, [Out.infEnd]) ∧
    (step ⟨[], true⟩ (Ev.infDone (InfResult.ok ""))).2.countP isTranscriptMsg = 0 := by
  constructor <;> decide

/-- C7 (amended) -- For every transcription pass that a connection actually
runs: on success the server sends a transcript message with the trimmed
result text if and only if the result trims to a non-empty string (a
whitespace-only or empty success sends nothing); on failure it sends an
explicit error message; and in all cases the `finally` block clears the
in-flight flag and preserves the accumulation buffer, so the connection
continues accepting and processing further audio. -/
theorem inference_result_reporting (s : Conn) (h : s.isTranscribing = true) :
    (∀ t, jsTrim t ≠ "" →
      step s (Ev.infDone (InfResult.ok t))
        = ({ s with isTranscribing := false },
            [Out.send (ServerMsg.transcription (jsTrim t)), Out.infEnd])) ∧
    (∀ t, jsTrim t = "" →
      step s (Ev.infDone (InfResult.ok t))
        = ({ s with isTranscribing := false }, [Out.infEnd])) ∧
    step s (Ev.infDone InfResult.err)
      = ({ s with isTranscribing := false },
          [Out.send (ServerMsg.error "Transcription failed"), Out.infEnd]) ∧
    ∀ r, (step s (Ev.infDone r)).1.isTranscribing = false ∧
      (step s (Ev.infDone r)).1.pcmBuffer = s.pcmBuffer := by
  refine ⟨?_, ?_, ?_, ?_⟩
  · intro t htrim
    have ht : t ≠ "" := by
      intro h0
      rw [h0, jsTrim_empty] at htrim
      exact htrim rfl
    simp [step, infDoneStep, h, ht, htrim]
  · intro t htrim
    have hguard : ¬(t ≠ "" ∧ jsTrim t ≠ "") := fun hg => hg.2 htrim
    simp [step, infDoneStep, h, hguard]
  · simp [step, infDoneStep, h]
  · intro r
    cases r with
    | ok t =>
      by_cases hg : t ≠ "" ∧ jsTrim t ≠ ""
      · simp [step, infDoneStep, h, hg]
      · simp [step, infDoneStep, h, hg]
    | err => simp [step, infDoneStep, h]

/-- Witness for `inference_result_reporting` at a concrete in-flight state
and a successful result carrying surrounding whitespace. -/
theorem inference_result_reporting_witness :
    step ⟨[[7]], true⟩ (Ev.infDone (InfResult.ok " hi "))
      = (⟨[[7]], false⟩,
          [Out.send (ServerMsg.transcription "hi"), Out.infEnd]) := by
  have h := (inference_result_reporting ⟨[[7]], true⟩ rfl).1 " hi " (by decide)
  simpa using h

/-! ## Server connection handler, timed view (`websocket.ts` lines 57-104)

Adds the silence timer (`transcriptionTimer`, `setTimeout(…, 500)`, cleared
and restarted by every binary frame), the latency clock
(`lastTranscriptionTime`, line 23 and the check at lines 84-88), and the
in-flight flag.  The interpreter processes timestamped input events in
order; a pending timer whose deadline lies strictly before the next event's
time fires first (a frame arriving at the very deadline clears the timer,
as `clearTimeout` runs in the same turn).  It records the wall-clock times
at which `triggerTranscription` is invoked. -/

structure TConn where
  timerDeadline : Option Nat
  lastTranscriptionTime : Nat
  isTranscribing : Bool
  bufLen : Nat
deriving DecidableEq, Repr

/-- The state effect of a `triggerTranscription` call in the timed view:
the guards of lines 129-136, then snapshot-and-clear and in-flight set.
(`lastTranscriptionTime` is only updated when the pass completes.) -/
def ttrigger (s : TConn) : TConn :=
  if s.bufLen = 0 then s
  else if s.isTranscribing then s
  else { s with bufLen := 0, isTranscribing := true }

/-- Timestamped input events: a binary audio frame from the client, a
decoded PCM chunk surfacing from ffmpeg, and the completion (`finally`
block) of an in-flight inference pass. -/
inductive TEv
  | frame (t : Nat)
  | pcm (t : Nat) (n : Nat)
  | infDone (t : Nat)
deriving DecidableEq, Repr

def tTime : TEv → Nat
  | TEv.frame t => t
  | TEv.pcm t _ => t
  | TEv.infDone t => t

/-- Fire the pending silence timer if its deadline lies strictly before
time `t`; returns the trigger-call times recorded. -/
def fireBefore (s : TConn) (t : Nat) : TConn × List Nat :=
  match s.timerDeadline with
  | none => (s, [])
  | some d =>
    if d < t then (ttrigger { s with timerDeadline := none }, [d])
    else (s, [])

/-- Handler body for a binary frame at time `t` (lines 58-88): restart the
silence timer with a 500ms delay, then run the latency check — if more than
3000ms passed since the last completed pass and no inference is in flight,
call `triggerTranscription`. -/
def handleFrame (s : TConn) (t : Nat) : TConn × List Nat :=
  if 3000 < t - s.lastTranscriptionTime ∧ s.isTranscribing = false then
    (ttrigger { s with timerDeadline := some (t + 500) }, [t])
  else ({ s with timerDeadline := some (t + 500) }, [])

def handleTEv (s : TConn) : TEv → TConn × List Nat
  | TEv.frame t => handleFrame s t
  | TEv.pcm _ n => ({ s with bufLen := s.bufLen + n }, [])
  | TEv.infDone t =>
    if s.isTranscribing then
      ({ s with isTranscribing := false, lastTranscriptionTime := t }, [])
    else (s, [])

/-- Fire the pending timer at the end of the input if its deadline is
within the observation horizon. -/
def fireAtEnd (s : TConn) (horizon : Nat) : TConn × List Nat :=
  match s.timerDeadline with
  | none => (s, [])
  | some d =>
    if d ≤ horizon then (ttrigger { s with timerDeadline := none }, [d])
    else (s, [])

/-- Timed interpreter: process the input events in order, firing pending
timer deadlines that come due, and collect every `triggerTranscription`
call time. -/
def trun (s : TConn) : List TEv → Nat → TConn × List Nat
  | [], horizon => fireAtEnd s horizon
  | e :: rest, horizon =>
    let p := fireBefore s (tTime e)
    let q := handleTEv p.1 e
    let r := trun q.1 rest horizon
    (r.1, p.2 ++ q.2 ++ r.2)

lemma trun_nil (s : TConn) (horizon : Nat) :
    trun s [] horizon = fireAtEnd s horizon := rfl

lemma trun_cons (s : TConn) (e : TEv) (rest : List TEv) (horizon : Nat) :
    trun s (e :: rest) horizon
      = ((trun (handleTEv (fireBefore s (tTime e)).1 e).1 rest horizon).1,
          (fireBefore s (tTime e)).2
            ++ (handleTEv (fireBefore s (tTime e)).1 e).2
            ++ (trun (handleTEv (fireBefore s (tTime e)).1 e).1 rest horizon).2) := rfl

/-- `ttrigger` never touches the timer deadline. -/
lemma ttrigger_timerDeadline (s : TConn) :
    (ttrigger s).timerDeadline = s.timerDeadline := by
  unfold ttrigger
  split_ifs <;> rfl

/-- Trigger-call times later than `L` among the recorded calls. -/
def lateFilter (L : Nat) (l : List Nat) : List Nat :=
  l.filter (fun d => decide (L < d))

lemma lateFilter_append (L : Nat) (a b : List Nat) :
    lateFilter L (a ++ b) = lateFilter L a ++ lateFilter L b :=
  List.filter_append _ _

/-- A timer fire strictly before a frame at time `t ≤ L` happens no later
than `L`. -/
lemma fireBefore_late (s : TConn) (t L : Nat) (h : t ≤ L) :
    lateFilter L (fireBefore s t).2 = [] := by
  rcases hd : s.timerDeadline with _ | d
  · simp [fireBefore, lateFilter, hd]
  · simp only [fireBefore, hd]
    split_ifs with hlt
    · have hnl : decide (L < d) = false := by
        simp only [decide_eq_false_iff_not]
        omega
      simp [lateFilter, hnl]
    · rfl

/-- A latency trigger at a frame time `t ≤ L` happens no later than `L`. -/
lemma handleFrame_late (s : TConn) (t L : Nat) (h : t ≤ L) :
    lateFilter L (handleFrame s t).2 = [] := by
  unfold handleFrame
  split_ifs with hg
  · have hnl : decide (L < t) = false := by
      simp only [decide_eq_false_iff_not]
      omega
    simp [lateFilter, hnl]
  · rfl

/-- Handling a frame at time `t` always leaves the silence timer armed for
`t + 500`. -/
lemma handleFrame_deadline (s : TConn) (t : Nat) :
    (handleFrame s t).1.timerDeadline = some (t + 500) := by
  unfold handleFrame
  split_ifs with hg
  · rw [ttrigger_timerDeadline]
  · rfl

lemma fireAtEnd_late (s : TConn) (L H : Nat)
    (hd : s.timerDeadline = some (L + 500)) (hH : L + 500 ≤ H) :
    lateFilter L (fireAtEnd s H).2 = [L + 500] := by
  simp only [fireAtEnd, hd]
  rw [if_pos hH]
  simp [lateFilter]

/-- C5 -- Silence episode: after the last binary frame of a burst (all
frames at times `≤ L`, the last one exactly at `L`), if the connection then
stays idle past `L + 500`, exactly one transcription trigger fires after
`L` — the silence timer restarted by the last frame, elapsing once at
`L + 500`.  Earlier frames only restart the single timer, so no other
trigger falls in the idle period, from any starting state. -/
theorem silence_trigger_exactly_once (ts : List Nat) (L H : Nat) (s : TConn)
    (hne : ts ≠ []) (hle : ∀ t ∈ ts, t ≤ L) (hlast : ts.getLast? = some L)
    (hH : L + 500 ≤ H) :
    lateFilter L (trun s (ts.map TEv.frame) H).2 = [L + 500] := by
  induction ts generalizing s with
  | nil => exact absurd rfl hne
  | cons t rest ih =>
    have ht : t ≤ L := hle t (List.mem_cons_self t rest)
    rw [List.map_cons, trun_cons]
    dsimp only
    simp only [tTime]
    rw [lateFilter_append, lateFilter_append]
    rw [fireBefore_late s t L ht]
    simp only [handleTEv]
    rw [handleFrame_late _ t L ht]
    cases rest with
    | nil =>
      have htL : t = L := by simpa using hlast
      subst htL
      rw [List.map_nil, trun_nil]
      rw [fireAtEnd_late _ t H (handleFrame_deadline _ t) hH]
      rfl
    | cons r0 rest' =>
      have hlast' : (r0 :: rest').getLast? = some L := by
        rw [List.getLast?_cons_cons] at hlast
        exact hlast
      have hle' : ∀ x ∈ r0 :: rest', x ≤ L := fun x hx =>
        hle x (List.mem_cons_of_mem _ hx)
      rw [ih _ (by simp) hle' hlast']
      rfl

/-- Witness for `silence_trigger_exactly_once`: two frames at 0ms and
300ms, then silence; observed to 1000ms, the one trigger fires at 800ms. -/
theorem silence_trigger_exactly_once_witness :
    lateFilter 300
      (trun ⟨none, 0, false, 4⟩ ([0, 300].map TEv.frame) 1000).2 = [800] :=
  silence_trigger_exactly_once [0, 300] 300 1000 ⟨none, 0, false, 4⟩
    (by decide) (by decide) (by decide) (by decide)

lemma mem_of_getLast?_eq (l : List Nat) (a : Nat) (h : l.getLast? = some a) :
    a ∈ l := by
  induction l with
  | nil => simp at h
  | cons x rest ih =>
    cases rest with
    | nil =>
      have hxa : x = a := by simpa using h
      simp [hxa]
    | cons y ys =>
      rw [List.getLast?_cons_cons] at h
      exact List.mem_cons_of_mem _ (ih h)

/-- Relation between consecutive frame times in a continuous burst:
non-decreasing, with inter-frame gaps of at most the 500ms silence
threshold. -/
def gapOK (a b : Nat) : Prop := a ≤ b ∧ b ≤ a + 500

/-- Auxiliary induction for the latency bound: from a state with no pass
in flight, last-pass clock `t0`, and a timer (if armed) not due before the
next frame, a gap-bounded frame burst whose first frame is at most
`t0 + 3500` and which reaches past `t0 + 3000` produces a trigger call no
later than `t0 + 3500`. -/
lemma latency_aux (t0 H : Nat) :
    ∀ (ts : List Nat) (s : TConn),
      s.isTranscribing = false →
      s.lastTranscriptionTime = t0 →
      List.Chain' gapOK ts →
      (∀ h, ts.head? = some h → h ≤ t0 + 3500) →
      (∀ h d, ts.head? = some h → s.timerDeadline = some d → h ≤ d) →
      (∃ t ∈ ts, t0 + 3000 < t) →
      ∃ x ∈ (trun s (ts.map TEv.frame) H).2, x ≤ t0 + 3500 := by
  intro ts
  induction ts with
  | nil =>
    intro s _ _ _ _ _ hex
    simp at hex
  | cons t rest ih =>
    intro s hfl hlast hchain hhead hdl hex
    have hfb : fireBefore s t = (s, []) := by
      rcases hd : s.timerDeadline with _ | d
      · simp [fireBefore, hd]
      · have htd : t ≤ d := hdl t d rfl hd
        simp only [fireBefore, hd]
        rw [if_neg (by omega)]
    rw [List.map_cons, trun_cons]
    dsimp only
    simp only [tTime, hfb]
    simp only [handleTEv]
    by_cases hgt : t0 + 3000 < t
    · have hguard : 3000 < t - s.lastTranscriptionTime ∧ s.isTranscribing = false := by
        rw [hlast]
        exact ⟨by omega, hfl⟩
      unfold handleFrame
      rw [if_pos hguard]
      refine ⟨t, ?_, hhead t rfl⟩
      simp
    · have hguard :
          ¬(3000 < t - s.lastTranscriptionTime ∧ s.isTranscribing = false) := by
        rw [hlast]
        intro hg
        omega
      unfold handleFrame
      rw [if_neg hguard]
      have hch := List.chain'_cons'.mp hchain
      rcases hex with ⟨x, hx, hxgt⟩
      rcases List.mem_cons.mp hx with hx0 | hxrest
      · subst hx0
        exact absurd hxgt hgt
      obtain ⟨x', hx', hxle⟩ :=
        ih { s with timerDeadline := some (t + 500) } hfl hlast hch.2
          (fun h hh => by
            have hrel : gapOK t h := hch.1 h (by rw [hh]; rfl)
            unfold gapOK at hrel
            omega)
          (fun h d hh hd => by
            have hrel : gapOK t h := hch.1 h (by rw [hh]; rfl)
            unfold gapOK at hrel
            have hd' : t + 500 = d := by simpa using hd
            omega)
          ⟨x, hxrest, hxgt⟩
      refine ⟨x', ?_, hxle⟩
      simp only [List.append_assoc, List.mem_append]
      right
      right
      exact hx'

/-- C6 -- Latency-bound trigger: a connection receiving a continuous burst
of binary frames (consecutive gaps at most the 500ms silence threshold)
whose first frame is at time `t0` (with the last completed pass at `t0`)
and which lasts beyond the 3000ms latency ceiling produces at least one
`triggerTranscription` call no later than `t0 + 3500` — in particular
strictly before the latency ceiling elapses a second time. -/
theorem latency_trigger_before_second_ceiling
    (ts : List Nat) (t0 L H b : Nat)
    (hhead : ts.head? = some t0)
    (hchain : List.Chain' gapOK ts)
    (hlast : ts.getLast? = some L) (hgtL : t0 + 3000 < L) :
    ∃ x ∈ (trun ⟨none, t0, false, b⟩ (ts.map TEv.frame) H).2,
      x ≤ t0 + 3500 ∧ x < t0 + 2 * 3000 := by
  obtain ⟨x, hx, hxle⟩ :=
    latency_aux t0 H ts ⟨none, t0, false, b⟩ rfl rfl hchain
      (fun h hh => by
        rw [hhead] at hh
        have : h = t0 := by simpa using hh.symm
        omega)
      (fun h d _ hd => by simp at hd)
      ⟨L, mem_of_getLast?_eq ts L hlast, hgtL⟩
  exact ⟨x, hx, hxle, by omega⟩

/-- Witness for `latency_trigger_before_second_ceiling`: frames every
400ms from 0ms to 3200ms; a trigger call happens by 3500ms. -/
theorem latency_trigger_before_second_ceiling_witness :
    ∃ x ∈ (trun ⟨none, 0, false, 0⟩
        ([0, 400, 800, 1200, 1600, 2000, 2400, 2800, 3200].map TEv.frame)
        4000).2,
      x ≤ 0 + 3500 ∧ x < 0 + 2 * 3000 :=
  latency_trigger_before_second_ceiling
    [0, 400, 800, 1200, 1600, 2000, 2400, 2800, 3200] 0 3200 4000 0
    rfl (by simp [List.chain'_cons, List.chain'_singleton, gapOK]) (by decide) (by decide)

/-! ## ChunkQueue (client)

The repository imports `ChunkQueue` from `../audio/ChunkQueue`, but that
file is not present under the source tree; only its call sites in
`StreamingTranscriptionService.ts` are.  The queue is therefore modelled
from the specification (sections 3, 4.1 and 8). -/

/-- An audio chunk reduced to the data the queue bounds depend on: its
unique id and payload byte size. -/
structure AudioChunk where
  id : Nat
  size : Nat
deriving DecidableEq, Repr

/-- Modelled from the spec: `ChunkQueue` state (missing source file
`src/utils/audio/ChunkQueue.ts`) — ordered FIFO of chunks, configured
maximum item count and memory ceiling, and the paused flag. -/
structure ChunkQueue where
  items : List AudioChunk
  maxQueueSize : Nat
  memoryLimit : Nat
  paused : Bool
deriving DecidableEq, Repr

def ChunkQueue.bytes (q : ChunkQueue) : Nat :=
  (q.items.map AudioChunk.size).sum

def ChunkQueue.size (q : ChunkQueue) : Nat := q.items.length

def ChunkQueue.getMemoryUsage (q : ChunkQueue) : Nat := q.bytes

def ChunkQueue.isPaused (q : ChunkQueue) : Bool := q.paused

/-- Modelled from the spec: `enqueue(chunk) -> bool` accepts the chunk iff
the post-accept totals stay within the configured maximum item count and
memory ceiling; otherwise it rejects the chunk, returns false and marks
the queue paused (spec section 4.1). -/
def ChunkQueue.enqueue (q : ChunkQueue) (c : AudioChunk) : ChunkQueue × Bool :=
  if q.items.length + 1 ≤ q.maxQueueSize ∧ q.bytes + c.size ≤ q.memoryLimit then
    ({ q with items := q.items ++ [c] }, true)
  else
    ({ q with paused := true }, false)

/-- Modelled from the spec: `dequeue()` removes and returns the oldest
chunk (FIFO); the paused flag reverts to false once the queue is drained
below the thresholds (spec sections 3 and 4.1). -/
def ChunkQueue.dequeue (q : ChunkQueue) : ChunkQueue × Option AudioChunk :=
  match q.items with
  | [] =>
    (if 0 < q.memoryLimit ∧ 0 < q.maxQueueSize then { q with paused := false }
      else q, none)
  | c :: rest =>
    (if (rest.map AudioChunk.size).sum < q.memoryLimit
        ∧ rest.length < q.maxQueueSize then
      ⟨rest, q.maxQueueSize, q.memoryLimit, false⟩
    else
      ⟨rest, q.maxQueueSize, q.memoryLimit, q.paused⟩, some c)

/-- Modelled from the spec: `clear()` evicts all chunks and resets the
paused flag (spec section 4.1). -/
def ChunkQueue.clear (q : ChunkQueue) : ChunkQueue :=
  { q with items := [], paused := false }

/-- A queue operation issued by the producer or the consumer. -/
inductive QOp
  | enq (c : AudioChunk)
  | deq
deriving DecidableEq, Repr

def runQ (q : ChunkQueue) : List QOp → ChunkQueue
  | [] => q
  | QOp.enq c :: rest => runQ (q.enqueue c).1 rest
  | QOp.deq :: rest => runQ q.dequeue.1 rest

def emptyQueue (maxN memL : Nat) : ChunkQueue := ⟨[], maxN, memL, false⟩

lemma enqueue_limits (q : ChunkQueue) (c : AudioChunk) :
    (q.enqueue c).1.maxQueueSize = q.maxQueueSize
      ∧ (q.enqueue c).1.memoryLimit = q.memoryLimit := by
  unfold ChunkQueue.enqueue
  split_ifs <;> exact ⟨rfl, rfl⟩

lemma dequeue_limits (q : ChunkQueue) :
    q.dequeue.1.maxQueueSize = q.maxQueueSize
      ∧ q.dequeue.1.memoryLimit = q.memoryLimit := by
  rcases hq : q.items with _ | ⟨c, rest⟩ <;>
    (simp only [ChunkQueue.dequeue, hq]; split_ifs <;> exact ⟨rfl, rfl⟩)

/-- The bound invariant: totals within the queue's own configured limits. -/
def QInv (q : ChunkQueue) : Prop :=
  q.bytes ≤ q.memoryLimit ∧ q.size ≤ q.maxQueueSize

lemma enqueue_QInv (q : ChunkQueue) (c : AudioChunk) (h : QInv q) :
    QInv (q.enqueue c).1 := by
  unfold ChunkQueue.enqueue
  split_ifs with hg
  · refine ⟨?_, ?_⟩
    · simpa [ChunkQueue.bytes] using hg.2
    · simpa [ChunkQueue.size] using hg.1
  · exact h

lemma dequeue_QInv (q : ChunkQueue) (h : QInv q) : QInv q.dequeue.1 := by
  obtain ⟨hb, hn⟩ := h
  rcases hq : q.items with _ | ⟨c, rest⟩
  · simp only [ChunkQueue.dequeue, hq]
    split_ifs
    · exact ⟨by simp [ChunkQueue.bytes], by simp [ChunkQueue.size]⟩
    · exact ⟨hb, hn⟩
  · have hb' : (rest.map AudioChunk.size).sum ≤ q.memoryLimit := by
      rw [ChunkQueue.bytes, hq] at hb
      simp only [List.map_cons, List.sum_cons] at hb
      omega
    have hn' : rest.length ≤ q.maxQueueSize := by
      rw [ChunkQueue.size, hq] at hn
      simp only [List.length_cons] at hn
      omega
    simp only [ChunkQueue.dequeue, hq]
    split_ifs <;> exact ⟨by simpa [ChunkQueue.bytes] using hb',
      by simpa [ChunkQueue.size] using hn'⟩

lemma runQ_QInv (ops : List QOp) : ∀ q : ChunkQueue, QInv q → QInv (runQ q ops) := by
  induction ops with
  | nil => intro q h; exact h
  | cons op rest ih =>
    intro q h
    cases op with
    | enq c => exact ih _ (enqueue_QInv q c h)
    | deq => exact ih _ (dequeue_QInv q h)

lemma runQ_limits (ops : List QOp) : ∀ q : ChunkQueue,
    (runQ q ops).maxQueueSize = q.maxQueueSize
      ∧ (runQ q ops).memoryLimit = q.memoryLimit := by
  induction ops with
  | nil => intro q; exact ⟨rfl, rfl⟩
  | cons op rest ih =>
    intro q
    cases op with
    | enq c =>
      have h1 := ih (q.enqueue c).1
      have h2 := enqueue_limits q c
      exact ⟨h1.1.trans h2.1, h1.2.trans h2.2⟩
    | deq =>
      have h1 := ih q.dequeue.1
      have h2 := dequeue_limits q
      exact ⟨h1.1.trans h2.1, h1.2.trans h2.2⟩

/-- C3 -- ChunkQueue bounds: starting from an empty queue, after any
sequence of enqueue/dequeue operations the byte total is at most the memory
ceiling and the item count at most the maximum (in particular after every
successful enqueue); a successful enqueue lands within both bounds from any
state; an enqueue that would violate either bound returns false, leaves the
items untouched and sets paused; and a dequeue that brings the totals below
both thresholds resets paused to false.  (The queue is modelled from the
spec: its source file is absent from the tree.) -/
theorem chunkqueue_bounds_and_backpressure :
    (∀ (maxN memL : Nat) (ops : List QOp),
      (runQ (emptyQueue maxN memL) ops).bytes ≤ memL ∧
      (runQ (emptyQueue maxN memL) ops).size ≤ maxN) ∧
    (∀ (q : ChunkQueue) (c : AudioChunk), (q.enqueue c).2 = true →
      (q.enqueue c).1.bytes ≤ q.memoryLimit ∧
      (q.enqueue c).1.size ≤ q.maxQueueSize) ∧
    (∀ (q : ChunkQueue) (c : AudioChunk),
      q.maxQueueSize < q.size + 1 ∨ q.memoryLimit < q.bytes + c.size →
      q.enqueue c = ({ q with paused := true }, false)) ∧
    (∀ q : ChunkQueue, q.dequeue.1.bytes < q.dequeue.1.memoryLimit →
      q.dequeue.1.size < q.dequeue.1.maxQueueSize →
      q.dequeue.1.paused = false) := by
  refine ⟨?_, ?_, ?_, ?_⟩
  · intro maxN memL ops
    have hinv := runQ_QInv ops (emptyQueue maxN memL)
      ⟨by simp [ChunkQueue.bytes, emptyQueue], by simp [ChunkQueue.size, emptyQueue]⟩
    have hlim := runQ_limits ops (emptyQueue maxN memL)
    obtain ⟨ha, hb⟩ := hinv
    rw [hlim.2] at ha
    rw [hlim.1] at hb
    exact ⟨ha, hb⟩
  · intro q c h
    unfold ChunkQueue.enqueue at h ⊢
    split_ifs at h ⊢ with hg
    exact ⟨by simpa [ChunkQueue.bytes] using hg.2,
      by simpa [ChunkQueue.size] using hg.1⟩
  · intro q c h
    have hneg : ¬(q.items.length + 1 ≤ q.maxQueueSize
        ∧ q.bytes + c.size ≤ q.memoryLimit) := by
      rw [ChunkQueue.size] at h
      intro hg
      omega
    unfold ChunkQueue.enqueue
    rw [if_neg hneg]
  · intro q h1 h2
    rcases hq : q.items with _ | ⟨c, rest⟩
    · simp only [ChunkQueue.dequeue, hq] at h1 h2 ⊢
      split_ifs at h1 h2 ⊢ with hc
      · rfl
      · exfalso
        apply hc
        constructor
        · have : q.bytes = 0 := by simp [ChunkQueue.bytes, hq]
          omega
        · have : q.size = 0 := by simp [ChunkQueue.size, hq]
          omega
    · simp only [ChunkQueue.dequeue, hq] at h1 h2 ⊢
      split_ifs at h1 h2 ⊢ with hc
      · rfl
      · exfalso
        apply hc
        constructor
        · simpa [ChunkQueue.bytes] using h1
        · simpa [ChunkQueue.size] using h2

/-- Witness for `chunkqueue_bounds_and_backpressure`: the spec section 8
scenario — ceiling 2500 bytes, max count 10, three 1000-byte enqueues (the
third rejected and pausing the queue), then a dequeue. -/
theorem chunkqueue_bounds_and_backpressure_witness :
    ((runQ (emptyQueue 10 2500)
        [QOp.enq ⟨0, 1000⟩, QOp.enq ⟨1, 1000⟩, QOp.enq ⟨2, 1000⟩, QOp.deq,
          QOp.enq ⟨3, 1000⟩]).bytes ≤ 2500) ∧
    ChunkQueue.enqueue ⟨[⟨0, 1000⟩, ⟨1, 1000⟩], 10, 2500, false⟩ ⟨2, 1000⟩
      = (⟨[⟨0, 1000⟩, ⟨1, 1000⟩], 10, 2500, true⟩, false) :=
  ⟨(chunkqueue_bounds_and_backpressure.1 10 2500
      [QOp.enq ⟨0, 1000⟩, QOp.enq ⟨1, 1000⟩, QOp.enq ⟨2, 1000⟩, QOp.deq,
        QOp.enq ⟨3, 1000⟩]).1,
    chunkqueue_bounds_and_backpressure.2.2.1
      ⟨[⟨0, 1000⟩, ⟨1, 1000⟩], 10, 2500, false⟩ ⟨2, 1000⟩
      (Or.inr (by decide))⟩

/-! ## StreamingTranscriptionService (client session)

Embedding of `StreamingTranscriptionService.ts`.  One JS event-loop turn is
one atomic step.  `elapsedMs` accumulates the time spent in `sleep` calls;
`wireSent` records what went out on the socket; `notices` records
user-visible `Notice` popups. -/

/-- Data sent over the socket by the client: binary audio frames
(identified by chunk id) and the `{type:'flush'}` control message. -/
inductive WireMsg
  | audio (id : Nat)
  | flushCtl
deriving DecidableEq, Repr

structure Session where
  isProcessing : Bool
  hasSocket : Bool
  socketOpen : Bool
  queue : ChunkQueue
  processedChunks : List Nat
  segments : List String
  wireSent : List WireMsg
  notices : List String
  elapsedMs : Nat
deriving DecidableEq, Repr

/-- One iteration of `processQueueLoop` (lines 160-187): while
`isProcessing` and the socket is open, dequeue; on empty queue sleep 50ms;
on a chunk, send it as a binary frame and record its id as processed.  When
`isProcessing` is false or the socket closed, the loop exits without
touching the state (returned flag `false`). -/
def loopIter (s : Session) : Session × Bool :=
  if s.isProcessing ∧ s.socketOpen then
    match s.queue.dequeue with
    | (q2, none) => ({ s with queue := q2, elapsedMs := s.elapsedMs + 50 }, true)
    | (q2, some c) =>
      ({ s with
          queue := q2
          wireSent := s.wireSent ++ [WireMsg.audio c.id]
          processedChunks :=
            if c.id ∈ s.processedChunks then s.processedChunks
            else s.processedChunks ++ [c.id] }, true)
  else (s, false)

/-- The wait loop of `finishProcessing` (lines 194-198): up to 100 attempts
of 50ms sleeps while the queue is non-empty.  The queue itself is not
touched — the only consumer is `processQueueLoop`, which has already been
stopped (see `loopIter`). -/
def waitDrain : Session → Nat → Session
  | s, 0 => s
  | s, fuel + 1 =>
    if 0 < s.queue.size then
      waitDrain { s with elapsedMs := s.elapsedMs + 50 } fuel
    else s

/-- The tail of `finishProcessing` (lines 200-211): if a socket exists and
is open, send the `flush` control message, sleep 1000ms for the settle
window, then close the socket. -/
def finishTail (s : Session) : Session :=
  if s.hasSocket ∧ s.socketOpen then
    { s with
        wireSent := s.wireSent ++ [WireMsg.flushCtl]
        elapsedMs := s.elapsedMs + 1000
        socketOpen := false }
  else s

/-- `finishProcessing` (lines 189-218): set `isProcessing := false` (which
makes the drain loop exit at its next check), wait up to 5 seconds for the
queue to empty, then flush, settle and close. -/
def finishProcessing (s : Session) : Session :=
  finishTail (waitDrain { s with isProcessing := false } 100)

/-- `connectSocket` (lines 80-112): resolve immediately if an open socket
exists; otherwise the connection attempt either opens the socket and
resolves, or fails and rejects the promise. -/
def connectSocket (s : Session) (ok : Bool) : Session × Except String Unit :=
  if s.hasSocket ∧ s.socketOpen then (s, Except.ok ())
  else if ok then
    ({ s with hasSocket := true, socketOpen := true }, Except.ok ())
  else
    ({ s with hasSocket := true, socketOpen := false },
      Except.error "WebSocket error")

/-- `startProcessing` (lines 65-78): no-op when already processing;
otherwise set `isProcessing`, await `connectSocket` and, if it rejects,
catch the error, show a notice and reset `isProcessing` — the returned
promise resolves in every case. -/
def startProcessing (s : Session) (ok : Bool) : Session × Except String Unit :=
  if s.isProcessing then (s, Except.ok ())
  else
    match connectSocket { s with isProcessing := true } ok with
    | (s2, Except.ok _) => (s2, Except.ok ())
    | (s2, Except.error _) =>
      ({ s2 with
          notices := s2.notices ++ ["Connection to streaming backend failed"]
          isProcessing := false }, Except.ok ())

/-- `abort` (lines 235-245): stop processing, clear the queue, close and
null the socket if present. -/
def closeStep (s : Session) : Session :=
  if s.hasSocket then { s with socketOpen := false, hasSocket := false } else s

/-- `cleanup` (lines 247-252): clear the queue and compiled results and
reset the processing flag. -/
def cleanupStep (s : Session) : Session :=
  { s with
      queue := s.queue.clear
      segments := []
      processedChunks := []
      isProcessing := false }

/-- `abort` (lines 235-245) followed by its `cleanup` call. -/
def abort (s : Session) : Session :=
  cleanupStep (closeStep { s with isProcessing := false, queue := s.queue.clear })

/-- A session mid-recording: drain loop live, socket open, and one
100-byte chunk (id 0) still queued at the moment finish is requested. -/
def s4 : Session :=
  ⟨true, true, true, ⟨[⟨0, 100⟩], 10, 10000, false⟩, [], [], [], [], 0⟩

/-- C4 -- Evaluation of `finishProcessing` at a session with one queued
chunk: `finishProcessing` sets `isProcessing := false` first, which makes
the drain loop — the only queue consumer — exit at its next check
(`loopIter` no-op), so a non-empty queue can never drain: the queued chunk
is never sent, the wait loop runs its full 5-second ceiling (100 polls of
50ms), and only then are the flush message, the 1-second settle and the
close performed, with the chunk still queued.  This contradicts the claim
that the session stops pulling new chunks only after the current queue
drains. -/
theorem finish_with_backlog_never_drains :
    (finishProcessing s4).queue.items = [⟨0, 100⟩] ∧
    (finishProcessing s4).wireSent = [WireMsg.flushCtl] ∧
    (finishProcessing s4).elapsedMs = 100 * 50 + 1000 ∧
    (finishProcessing s4).socketOpen = false ∧
    loopIter { s4 with isProcessing := false }
      = ({ s4 with isProcessing := false }, false) := by
  refine ⟨?_, ?_, ?_, ?_, ?_⟩ <;> rfl

/-- A freshly constructed session: not processing, no socket yet. -/
def session0 : Session := ⟨false, false, false, emptyQueue 10 10000, [], [], [], [], 0⟩

/-- C8 (counterexample) -- When establishing the socket fails during
session start, `startProcessing` catches the rejection: the start
operation resolves with `ok` — it is not rejected, contradicting the claim
that the failure is surfaced to the caller as a failed start.  (The
session indeed does not become active, and a user-facing notice is shown
instead.) -/
theorem start_failure_resolves_ok :
    (startProcessing session0 false).2 = Except.ok () ∧
    (startProcessing session0 false).1.isProcessing = false ∧
    (startProcessing session0 false).1.notices
      = ["Connection to streaming backend failed"] := by
  refine ⟨?_, ?_, ?_⟩ <;> rfl

/-- C8 (amended) -- If establishing the socket connection fails during
session start (no open socket already present), the error is caught inside
`startProcessing`: the session does not become active (`isProcessing`
reverts to false), no socket is open, a warning notice is surfaced to the
user, and the start call returns normally — the failure is not surfaced to
the caller as a rejection, and the host application does not crash (the
returned value is always `ok`). -/
theorem start_failure_caught_notice (s : Session)
    (h1 : s.isProcessing = false) (h2 : s.socketOpen = false) :
    (startProcessing s false).2 = Except.ok () ∧
    (startProcessing s false).1.isProcessing = false ∧
    (startProcessing s false).1.socketOpen = false ∧
    (startProcessing s false).1.notices
      = s.notices ++ ["Connection to streaming backend failed"] := by
  unfold startProcessing
  rw [if_neg (by simp [h1])]
  unfold connectSocket
  rw [if_neg (by simp [h2]), if_neg (by simp)]
  exact ⟨rfl, rfl, rfl, rfl⟩

/-- Witness for `start_failure_caught_notice` at a concrete idle session
with an earlier notice. -/
theorem start_failure_caught_notice_witness :
    (startProcessing
        ⟨false, false, false, emptyQueue 5 500, [], [], [], ["earlier"], 3⟩
        false).2 = Except.ok () ∧
    (startProcessing
        ⟨false, false, false, emptyQueue 5 500, [], [], [], ["earlier"], 3⟩
        false).1.notices
      = ["earlier"] ++ ["Connection to streaming backend failed"] := by
  have h := start_failure_caught_notice
    ⟨false, false, false, emptyQueue 5 500, [], [], [], ["earlier"], 3⟩ rfl rfl
  exact ⟨h.1, h.2.2.2⟩

/-- C9 -- `abort` on any session state stops the drain loop immediately
(`loopIter` exits without touching the state), releases the queue contents
(items emptied, memory usage zero), closes and discards the socket when one
is present, sends nothing — in particular no flush handshake — and is
idempotent: a second `abort` leaves the state exactly as after the
first. -/
theorem abort_stops_loop_releases_queue_idempotent (s : Session) :
    (abort s).isProcessing = false ∧
    (abort s).queue.items = [] ∧
    (abort s).queue.getMemoryUsage = 0 ∧
    (abort s).wireSent = s.wireSent ∧
    (abort s).hasSocket = false ∧
    (s.hasSocket = true → (abort s).socketOpen = false) ∧
    loopIter (abort s) = (abort s, false) ∧
    abort (abort s) = abort s := by
  obtain ⟨p, hsk, so, q, pc, seg, ws, no, el⟩ := s
  cases hsk <;>
    simp [abort, closeStep, cleanupStep, ChunkQueue.clear,
      ChunkQueue.getMemoryUsage, ChunkQueue.bytes, loopIter]

/-- Witness for `abort_stops_loop_releases_queue_idempotent` at a concrete
active session. -/
theorem abort_stops_loop_releases_queue_idempotent_witness :
    (abort ⟨true, true, true, ⟨[⟨1, 10⟩], 4, 100, false⟩, [1], ["seg"],
        [WireMsg.audio 5], [], 0⟩).wireSent = [WireMsg.audio 5] ∧
    (abort ⟨true, true, true, ⟨[⟨1, 10⟩], 4, 100, false⟩, [1], ["seg"],
        [WireMsg.audio 5], [], 0⟩).socketOpen = false ∧
    abort (abort ⟨true, true, true, ⟨[⟨1, 10⟩], 4, 100, false⟩, [1], ["seg"],
        [WireMsg.audio 5], [], 0⟩)
      = abort ⟨true, true, true, ⟨[⟨1, 10⟩], 4, 100, false⟩, [1], ["seg"],
          [WireMsg.audio 5], [], 0⟩ := by
  obtain ⟨h1, h2, h3, h4, h5, h6, h7, h8⟩ :=
    abort_stops_loop_releases_queue_idempotent
      ⟨true, true, true, ⟨[⟨1, 10⟩], 4, 100, false⟩, [1], ["seg"],
        [WireMsg.audio 5], [], 0⟩
  exact ⟨h4, h6 rfl, h8⟩

end NeuroVox
